import Mathlib

/-!
# Verification of the retropixel-studio raster editing engine

Shallow embedding of the pixel-editor core found in `src/App.tsx`:
colors and hex parsing (`hexToRgb`, the canvas read-back format of
`getPixelColor`), the pixel buffer (canvas `ImageData` as a flat
row-major list of RGB triples), the rasterizers (`drawLine`,
`drawRect`, `drawCircle`, `floodFill`), the history stack
(`saveToHistory`, `undo`, `redo`) and the mouse-gesture handlers
(`handleMouseDown`, `handleMouseUp`).

JavaScript `while` loops are embedded with an explicit fuel
parameter; an `Option` result distinguishes a loop that finished
(`some`) from one that was cut off by exhausted fuel (`none`).
Machine numbers in the source are small integers (pixel coordinates,
8-bit channels), modelled as `Int`/`Nat`.
-/

set_option autoImplicit false

namespace RetroPixel

/-- An RGB triple, one pixel of the canvas `ImageData` (the source
ignores the alpha channel when reading and writing pixels). -/
structure RGB where
  r : Nat
  g : Nat
  b : Nat
  deriving DecidableEq

/-- Black, the value `getImageData` yields for the channels of an
out-of-range read (all zero). -/
def RGB.black : RGB := ⟨0, 0, 0⟩

/-- Is `c` a hex digit accepted by the source regex character class
`[a-f\d]` under the `i` flag (digits, `a`-`f`, `A`-`F`)? -/
def isHexDigit (c : Char) : Bool :=
  ( '0' ≤ c && c ≤ '9') || ( 'a' ≤ c && c ≤ 'f') || ( 'A' ≤ c && c ≤ 'F')

/-- Numeric value of a hex digit (`parseInt(_, 16)` on one digit). -/
def hexVal (c : Char) : Nat :=
  if '0' ≤ c && c ≤ '9' then c.toNat - '0'.toNat
  else if 'a' ≤ c && c ≤ 'f' then c.toNat - 'a'.toNat + 10
  else if 'A' ≤ c && c ≤ 'F' then c.toNat - 'A'.toNat + 10
  else 0

/-- `hexToRgb` from the source: matches
`/^#?([a-f\d]{2})([a-f\d]{2})([a-f\d]{2})$/i` (an optional `#`
followed by exactly six case-insensitive hex digits) and returns the
three parsed channels, or `none` when the string does not match. -/
def hexToRgb (hex : String) : Option RGB :=
  let cs := hex.toList
  let cs := match cs with
    | '#' :: rest => rest
    | other => other
  match cs with
  | [a, b, c, d, e, f] =>
      if (isHexDigit a && isHexDigit b && isHexDigit c &&
          isHexDigit d && isHexDigit e && isHexDigit f) then
        some ⟨hexVal a * 16 + hexVal b, hexVal c * 16 + hexVal d,
              hexVal e * 16 + hexVal f⟩
      else none
  | _ => none

/-- One lowercase hex digit, as produced by `Number.toString(16)`. -/
def hexDigitChar (n : Nat) : Char :=
  if n < 10 then Char.ofNat ( '0'.toNat + n)
  else Char.ofNat ( 'a'.toNat + n - 10)

/-- A channel rendered as two lowercase hex characters:
`toString(16).padStart(2, '0')` for a byte value. -/
def byteToHex (n : Nat) : String :=
  String.mk [hexDigitChar (n / 16 % 16), hexDigitChar (n % 16)]

/-- The string `getPixelColor` builds from the pixel's channels:
`#` followed by the three channels in lowercase hex. -/
def rgbToHex (c : RGB) : String :=
  "#" ++ byteToHex c.r ++ byteToHex c.g ++ byteToHex c.b

/-! ## The pixel buffer

The canvas backing store (`ImageData.data`) is a flat row-major
array; we keep one `RGB` per pixel, so pixel `(x, y)` of a `w × h`
canvas lives at list index `y * w + x`. -/

/-- The canvas pixel store. -/
def Buffer := List RGB

instance : DecidableEq Buffer := by
  unfold Buffer
  infer_instance

/-- Is the integer coordinate inside the `w × h` canvas?  This is the
bounds test the source writes as
`x >= 0 && x < canvas.width && y >= 0 && y < canvas.height`. -/
def inBoundsI (w h : Nat) (x y : Int) : Prop :=
  0 ≤ x ∧ x < (w : Int) ∧ 0 ≤ y ∧ y < (h : Int)

instance (w h : Nat) (x y : Int) : Decidable (inBoundsI w h x y) := by
  unfold inBoundsI
  infer_instance

/-- Raw pixel read at a coordinate already known in bounds: the
channels at flat index `y * w + x` (an out-of-range read of
`ImageData.data` yields zero, hence the `RGB.black` default). -/
def bufGet (w : Nat) (buf : Buffer) (x y : Int) : RGB :=
  ((buf : List RGB).get? (y * (w : Int) + x).toNat).getD RGB.black

/-- Bounds-checked pixel read: `none` outside the canvas. -/
def pixelAt (w h : Nat) (buf : Buffer) (x y : Int) : Option RGB :=
  if inBoundsI w h x y then some (bufGet w buf x y) else none

/-- Pixel write with canvas clipping: `ctx.fillRect(x, y, 1, 1)`
changes nothing when the 1×1 rectangle lies outside the canvas. -/
def setPix (w h : Nat) (buf : Buffer) (x y : Int) (c : RGB) : Buffer :=
  if inBoundsI w h x y then
    (buf : List RGB).set (y * (w : Int) + x).toNat c
  else buf

/-- `drawPixel` from the source: sets `fillStyle` to the given color
string and fills the 1×1 rectangle at `(x, y)`.  A string the color
parser rejects leaves the canvas unchanged (the canvas keeps its
previous fill style; the app only ever passes `#rrggbb` strings). -/
def drawPixel (w h : Nat) (buf : Buffer) (x y : Int) (color : String) : Buffer :=
  match hexToRgb color with
  | some c => setPix w h buf x y c
  | none => buf

/-- `n` consecutive integers starting at `lo`. -/
def intRangeAux (lo : Int) : Nat → List Int
  | 0 => []
  | n + 1 => lo :: intRangeAux (lo + 1) n

/-- The inclusive integer range `[lo, hi]`, i.e. the index sequence
of `for (let v = lo; v <= hi; v++)` (empty when `hi < lo`). -/
def intRange (lo hi : Int) : List Int :=
  intRangeAux lo (hi + 1 - lo).toNat

theorem mem_intRangeAux {a : Int} : ∀ (n : Nat) (lo : Int),
    a ∈ intRangeAux lo n ↔ lo ≤ a ∧ a < lo + n := by
  intro n
  induction n with
  | zero => intro lo; simp [intRangeAux]
  | succ m ih =>
      intro lo
      simp only [intRangeAux, List.mem_cons, ih (lo + 1)]
      omega

theorem mem_intRange {lo hi a : Int} :
    a ∈ intRange lo hi ↔ lo ≤ a ∧ a ≤ hi := by
  unfold intRange
  rw [mem_intRangeAux]
  omega

/-! ### Flat-index arithmetic -/

theorem index_lt_of_row_lt {w : Nat} {x y x' y' : Int}
    (_hx : 0 ≤ x) (hxw : x < (w : Int)) (hx' : 0 ≤ x') (hy : y < y') :
    y * (w : Int) + x < y' * (w : Int) + x' := by
  have h1 : (y + 1) * (w : Int) ≤ y' * (w : Int) := by
    apply mul_le_mul_of_nonneg_right <;> omega
  rw [add_mul, one_mul] at h1
  linarith

theorem index_inj {w h : Nat} {x y x' y' : Int}
    (hb : inBoundsI w h x y) (hb' : inBoundsI w h x' y')
    (hne : ¬(x' = x ∧ y' = y)) :
    (y' * (w : Int) + x').toNat ≠ (y * (w : Int) + x).toNat := by
  obtain ⟨hx0, hxw, hy0, hyh⟩ := hb
  obtain ⟨hx0', hxw', hy0', hyh'⟩ := hb'
  have hwy : 0 ≤ y * (w : Int) := mul_nonneg hy0 (by positivity)
  have hwy' : 0 ≤ y' * (w : Int) := mul_nonneg hy0' (by positivity)
  rcases lt_trichotomy y y' with hlt | heq | hgt
  · have := index_lt_of_row_lt hx0 hxw hx0' hlt
    omega
  · subst heq
    have hxx : x' ≠ x := by tauto
    omega
  · have := index_lt_of_row_lt hx0' hxw' hx0 hgt
    omega

theorem index_lt_size {w h : Nat} {x y : Int} (hb : inBoundsI w h x y) :
    (y * (w : Int) + x).toNat < w * h := by
  obtain ⟨hx0, hxw, hy0, hyh⟩ := hb
  have h1 : (y + 1) * (w : Int) ≤ (w : Int) * (h : Int) := by
    rw [mul_comm (w : Int) (h : Int)]
    apply mul_le_mul_of_nonneg_right <;> omega
  rw [add_mul, one_mul] at h1
  have hf : 0 ≤ y * (w : Int) := mul_nonneg hy0 (by positivity)
  omega

/-! ### Reading back writes -/

theorem length_setPix (w h : Nat) (buf : Buffer) (x y : Int) (c : RGB) :
    (setPix w h buf x y c).length = (buf : List RGB).length := by
  unfold setPix
  split
  · exact List.length_set ..
  · rfl

theorem bufGet_setPix_self {w h : Nat} {buf : Buffer} {x y : Int} (c : RGB)
    (hb : inBoundsI w h x y) (hlen : (buf : List RGB).length = w * h) :
    bufGet w (setPix w h buf x y c) x y = c := by
  unfold setPix bufGet
  rw [if_pos hb]
  rw [List.get?_set_eq_of_lt]
  · rfl
  · rw [hlen]
    exact index_lt_size hb

theorem bufGet_setPix_ne {w h : Nat} {buf : Buffer} {x y x' y' : Int} (c : RGB)
    (hb' : inBoundsI w h x' y') (hne : ¬(x' = x ∧ y' = y)) :
    bufGet w (setPix w h buf x y c) x' y' = bufGet w buf x' y' := by
  unfold setPix bufGet
  split
  · rename_i hb
    rw [List.get?_set_ne]
    exact Ne.symm (index_inj hb hb' hne)
  · rfl

theorem pixelAt_setPix_self {w h : Nat} {buf : Buffer} {x y : Int} (c : RGB)
    (hb : inBoundsI w h x y) (hlen : (buf : List RGB).length = w * h) :
    pixelAt w h (setPix w h buf x y c) x y = some c := by
  unfold pixelAt
  rw [if_pos hb, bufGet_setPix_self c hb hlen]

theorem pixelAt_setPix_ne {w h : Nat} {buf : Buffer} {x y x' y' : Int} (c : RGB)
    (hne : ¬(x' = x ∧ y' = y)) :
    pixelAt w h (setPix w h buf x y c) x' y' = pixelAt w h buf x' y' := by
  unfold pixelAt
  split
  · rename_i hb'
    rw [bufGet_setPix_ne c hb' hne]
  · rfl

/-! ## Line rasterization (`drawLine`, Bresenham)

The source keeps `dx = |x1-x0|`, `dy = |y1-y0|`, steps `sx, sy ∈ {1,-1}`
and an error accumulator `err`, and loops `while (true)` plotting one
pixel per iteration until it reaches `(x1, y1)`. -/

/-- One iteration of the `drawLine` loop body after the plot and the
end test: `e2 = 2*err` is computed once; the first `if` moves `x` and
subtracts `dy` from `err`, the second moves `y` and adds `dx`
(both tests use the same `e2`, the `err` updates accumulate).
Returns the next `(x, y, err)`. -/
def lineStep (dx dy sx sy x y err : Int) : Int × Int × Int :=
  if 2 * err > -dy then
    if 2 * err < dx then (x + sx, y + sy, err - dy + dx)
    else (x + sx, y, err - dy)
  else
    if 2 * err < dx then (x, y + sy, err + dx)
    else (x, y, err)

/-- The `while (true)` loop of `drawLine`, fuel-bounded.  Each
iteration records the plotted pixel; the loop breaks after plotting
`(x1, y1)`.  `none` means the fuel was exhausted before the loop
broke (the real loop would still be running). -/
def lineLoop (x1 y1 dx dy sx sy : Int) :
    Nat → Int → Int → Int → Option (List (Int × Int))
  | 0, _, _, _ => none
  | fuel + 1, x, y, err =>
    if x = x1 ∧ y = y1 then some [(x, y)]
    else
      let s := lineStep dx dy sx sy x y err
      (lineLoop x1 y1 dx dy sx sy fuel s.1 s.2.1 s.2.2).map
        (fun l => (x, y) :: l)

/-- `drawLine` from the source, as the sequence of pixels it plots:
`dx`, `dy`, `sx`, `sy` and the initial `err = dx - dy` exactly as in
the code, run with fuel `dx + dy + 1` (each iteration moves `x` or
`y` one step towards the endpoint, proved in `lineLoop_inv`, so this
fuel always suffices). -/
def drawLinePath (x0 y0 x1 y1 : Int) : Option (List (Int × Int)) :=
  let dx : Int := ((x1 - x0).natAbs : Int)
  let dy : Int := ((y1 - y0).natAbs : Int)
  let sx : Int := if x0 < x1 then 1 else -1
  let sy : Int := if y0 < y1 then 1 else -1
  lineLoop x1 y1 dx dy sx sy ((x1 - x0).natAbs + (y1 - y0).natAbs + 1)
    x0 y0 (dx - dy)

/-- The pixels `drawLine` plots (the loop always terminates, see
`drawLinePath_spec`, so the default never fires). -/
def linePixels (x0 y0 x1 y1 : Int) : List (Int × Int) :=
  (drawLinePath x0 y0 x1 y1).getD []

theorem mem_of_head?_eq {α : Type} {l : List α} {a : α}
    (h : l.head? = some a) : a ∈ l := by
  cases l with
  | nil => simp at h
  | cons b t =>
      simp only [List.head?_cons, Option.some.injEq] at h
      exact h ▸ List.mem_cons_self b t

theorem mem_of_getLast?_eq {α : Type} {l : List α} {a : α}
    (h : l.getLast? = some a) : a ∈ l := by
  induction l with
  | nil => simp at h
  | cons b t ih =>
      cases t with
      | nil =>
          simp only [List.getLast?_singleton, Option.some.injEq] at h
          exact h ▸ List.mem_cons_self b []
      | cons c u =>
          rw [List.getLast?_cons_cons] at h
          exact List.mem_cons_of_mem b (ih h)

theorem getLast?_cons_of_head? {α : Type} {l : List α} {b : α}
    (h : l.head? = some b) (p : α) : (p :: l).getLast? = l.getLast? := by
  cases l with
  | nil => simp at h
  | cons c t => exact List.getLast?_cons_cons ..

/-- Loop invariant for `drawLine`: after `i` x-steps and `j` y-steps
the error accumulator is `dx*(1+j) - dy*(1+i)`; the decision tests
never over-step either axis, each iteration advances at least one
axis, and so fuel exceeding the remaining steps lets the loop finish
at the endpoint.  The produced pixel list starts at the current point
and ends at `(x1, y1)`. -/
theorem lineLoop_inv (x0 y0 sx sy : Int) (dxn dyn : Nat)
    (hsx : sx = 1 ∨ sx = -1) (hsy : sy = 1 ∨ sy = -1) :
    ∀ (fuel i j : Nat), i ≤ dxn → j ≤ dyn → (dxn - i) + (dyn - j) < fuel →
      ∃ l, lineLoop (x0 + sx * dxn) (y0 + sy * dyn) dxn dyn sx sy fuel
            (x0 + sx * i) (y0 + sy * j)
            ((dxn : Int) * (1 + (j : Int)) - (dyn : Int) * (1 + (i : Int)))
          = some l ∧
          l.head? = some (x0 + sx * i, y0 + sy * j) ∧
          l.getLast? = some (x0 + sx * dxn, y0 + sy * dyn) := by
  intro fuel
  induction fuel with
  | zero => intro i j hi hj hf; omega
  | succ f ih =>
    intro i j hi hj hf
    by_cases hdone : i = dxn ∧ j = dyn
    · obtain ⟨rfl, rfl⟩ := hdone
      refine ⟨[(x0 + sx * (i : Int), y0 + sy * (j : Int))], ?_, by simp, by simp⟩
      simp [lineLoop]
    · have hxeq : (x0 + sx * (i : Int) = x0 + sx * (dxn : Int)) ↔ i = dxn := by
        rcases hsx with rfl | rfl <;> constructor <;> intro h <;> omega
      have hyeq : (y0 + sy * (j : Int) = y0 + sy * (dyn : Int)) ↔ j = dyn := by
        rcases hsy with rfl | rfl <;> constructor <;> intro h <;> omega
      have hcond : ¬(x0 + sx * (i : Int) = x0 + sx * (dxn : Int) ∧
          y0 + sy * (j : Int) = y0 + sy * (dyn : Int)) := by
        rw [hxeq, hyeq]; exact hdone
      simp only [lineLoop]
      rw [if_neg hcond]
      by_cases hbx : 2 * ((dxn : Int) * (1 + (j : Int)) -
          (dyn : Int) * (1 + (i : Int))) > -(dyn : Int)
      · -- the x axis steps; it cannot be exhausted
        have hiD : i < dxn := by
          by_contra hge
          have hjE : j < dyn := by
            rcases Nat.lt_or_ge j dyn with hlt | hge2
            · exact hlt
            · exact absurd ⟨by omega, by omega⟩ hdone
          have hieq : (i : Int) = (dxn : Int) := by omega
          rw [hieq] at hbx
          have h3 : (dxn : Int) * (1 + (j : Int)) ≤ (dxn : Int) * (dyn : Int) := by
            apply mul_le_mul_of_nonneg_left _ (Int.natCast_nonneg dxn)
            omega
          have hE1 : (1 : Int) ≤ (dyn : Int) := by omega
          nlinarith [h3, hbx, hE1]
        by_cases hby : 2 * ((dxn : Int) * (1 + (j : Int)) -
            (dyn : Int) * (1 + (i : Int))) < (dxn : Int)
        · -- both axes step
          have hjD : j < dyn := by
            by_contra hge
            have hiD2 : i < dxn := hiD
            have hjeq : (j : Int) = (dyn : Int) := by omega
            rw [hjeq] at hby
            have h3 : (dyn : Int) * (1 + (i : Int)) ≤ (dyn : Int) * (dxn : Int) := by
              apply mul_le_mul_of_nonneg_left _ (Int.natCast_nonneg dyn)
              omega
            have hD1 : (1 : Int) ≤ (dxn : Int) := by omega
            nlinarith [h3, hby, hD1]
          obtain ⟨l, hl, hhead, hlast⟩ :=
            ih (i + 1) (j + 1) (by omega) (by omega) (by omega)
          refine ⟨(x0 + sx * (i : Int), y0 + sy * (j : Int)) :: l, ?_, by simp, ?_⟩
          · simp only [lineStep]
            rw [if_pos hbx, if_pos hby]
            have e1 : x0 + sx * (i : Int) + sx = x0 + sx * ((i + 1 : Nat) : Int) := by
              push_cast; ring
            have e2 : y0 + sy * (j : Int) + sy = y0 + sy * ((j + 1 : Nat) : Int) := by
              push_cast; ring
            have e3 : (dxn : Int) * (1 + (j : Int)) - (dyn : Int) * (1 + (i : Int)) -
                (dyn : Int) + (dxn : Int) =
                (dxn : Int) * (1 + ((j + 1 : Nat) : Int)) -
                (dyn : Int) * (1 + ((i + 1 : Nat) : Int)) := by
              push_cast; ring
            rw [e1, e2, e3, hl]
            rfl
          · rw [getLast?_cons_of_head? hhead]
            exact hlast
        · -- only the x axis steps
          obtain ⟨l, hl, hhead, hlast⟩ :=
            ih (i + 1) j (by omega) hj (by omega)
          refine ⟨(x0 + sx * (i : Int), y0 + sy * (j : Int)) :: l, ?_, by simp, ?_⟩
          · simp only [lineStep]
            rw [if_pos hbx, if_neg hby]
            have e1 : x0 + sx * (i : Int) + sx = x0 + sx * ((i + 1 : Nat) : Int) := by
              push_cast; ring
            have e3 : (dxn : Int) * (1 + (j : Int)) - (dyn : Int) * (1 + (i : Int)) -
                (dyn : Int) =
                (dxn : Int) * (1 + (j : Int)) -
                (dyn : Int) * (1 + ((i + 1 : Nat) : Int)) := by
              push_cast; ring
            rw [e1, e3, hl]
            rfl
          · rw [getLast?_cons_of_head? hhead]
            exact hlast
      · by_cases hby : 2 * ((dxn : Int) * (1 + (j : Int)) -
            (dyn : Int) * (1 + (i : Int))) < (dxn : Int)
        · -- only the y axis steps; it cannot be exhausted
          have hjD : j < dyn := by
            by_contra hge
            have hiD2 : i < dxn := by
              rcases Nat.lt_or_ge i dxn with hlt | hge2
              · exact hlt
              · exact absurd ⟨by omega, by omega⟩ hdone
            have hjeq : (j : Int) = (dyn : Int) := by omega
            rw [hjeq] at hby
            have h3 : (dyn : Int) * (1 + (i : Int)) ≤ (dyn : Int) * (dxn : Int) := by
              apply mul_le_mul_of_nonneg_left _ (Int.natCast_nonneg dyn)
              omega
            have hD1 : (1 : Int) ≤ (dxn : Int) := by omega
            nlinarith [h3, hby, hD1]
          obtain ⟨l, hl, hhead, hlast⟩ :=
            ih i (j + 1) hi (by omega) (by omega)
          refine ⟨(x0 + sx * (i : Int), y0 + sy * (j : Int)) :: l, ?_, by simp, ?_⟩
          · simp only [lineStep]
            rw [if_neg hbx, if_pos hby]
            have e2 : y0 + sy * (j : Int) + sy = y0 + sy * ((j + 1 : Nat) : Int) := by
              push_cast; ring
            have e3 : (dxn : Int) * (1 + (j : Int)) - (dyn : Int) * (1 + (i : Int)) +
                (dxn : Int) =
                (dxn : Int) * (1 + ((j + 1 : Nat) : Int)) -
                (dyn : Int) * (1 + (i : Int)) := by
              push_cast; ring
            rw [e2, e3, hl]
            rfl
          · rw [getLast?_cons_of_head? hhead]
            exact hlast
        · -- neither test fires: only possible at the endpoint
          exfalso
          have hDE : (dxn : Int) + (dyn : Int) ≤ 0 := by linarith
          exact hdone ⟨by omega, by omega⟩

/-- The `drawLine` loop always finishes within its fuel: the plotted
pixel list exists, starts at `(x0, y0)` and ends at `(x1, y1)`. -/
theorem drawLinePath_spec (x0 y0 x1 y1 : Int) :
    ∃ l, drawLinePath x0 y0 x1 y1 = some l ∧
      l.head? = some (x0, y0) ∧ l.getLast? = some (x1, y1) := by
  obtain ⟨l, hl, hh, hlast⟩ :=
    lineLoop_inv x0 y0 (if x0 < x1 then 1 else -1) (if y0 < y1 then 1 else -1)
      (x1 - x0).natAbs (y1 - y0).natAbs
      (by split <;> simp) (by split <;> simp)
      ((x1 - x0).natAbs + (y1 - y0).natAbs + 1) 0 0
      (Nat.zero_le _) (Nat.zero_le _) (by omega)
  have ex : x0 + (if x0 < x1 then (1 : Int) else -1) * ((x1 - x0).natAbs : Int)
      = x1 := by
    split <;> omega
  have ey : y0 + (if y0 < y1 then (1 : Int) else -1) * ((y1 - y0).natAbs : Int)
      = y1 := by
    split <;> omega
  have e0x : x0 + (if x0 < x1 then (1 : Int) else -1) * (((0 : Nat)) : Int)
      = x0 := by simp
  have e0y : y0 + (if y0 < y1 then (1 : Int) else -1) * (((0 : Nat)) : Int)
      = y0 := by simp
  have eerr : ((x1 - x0).natAbs : Int) * (1 + (((0 : Nat)) : Int)) -
      ((y1 - y0).natAbs : Int) * (1 + (((0 : Nat)) : Int)) =
      ((x1 - x0).natAbs : Int) - ((y1 - y0).natAbs : Int) := by simp
  rw [ex, ey, e0x, e0y, eerr] at hl
  rw [e0x, e0y] at hh
  rw [ex, ey] at hlast
  exact ⟨l, hl, hh, hlast⟩

/-- C10: Line rasterization terminates for every pair of integer
endpoints: the unconditional `while (true)` loop of the Bresenham
stepper finishes within `dx + dy + 1` iterations, plotting one pixel
per iteration, starting at `(x0, y0)` and reaching `(x1, y1)` where
it breaks. -/
theorem drawLine_terminates (x0 y0 x1 y1 : Int) :
    ∃ l, drawLinePath x0 y0 x1 y1 = some l ∧
      l.head? = some (x0, y0) ∧ l.getLast? = some (x1, y1) :=
  drawLinePath_spec x0 y0 x1 y1

/-- C5, counterexample: the pixel sets of `drawLine` are not
symmetric under swapping the endpoints.  From `(0,0)` to `(4,1)` the
path passes through `(2,0)`; from `(4,1)` to `(0,0)` it passes
through `(2,1)` instead, so the two sets differ. -/
theorem drawLine_asymmetry_example :
    ((2, 0) : Int × Int) ∈ linePixels 0 0 4 1 ∧
    ((2, 0) : Int × Int) ∉ linePixels 4 1 0 0 := by decide

/-- C5 (amended): path(A,B) and path(B,A) need not be equal as pixel
sets, but they always agree on the endpoints: each direction of
rasterization contains both `A` and `B`. -/
theorem linePixels_endpoints (x0 y0 x1 y1 : Int) :
    (x0, y0) ∈ linePixels x0 y0 x1 y1 ∧ (x1, y1) ∈ linePixels x0 y0 x1 y1 ∧
    (x0, y0) ∈ linePixels x1 y1 x0 y0 ∧ (x1, y1) ∈ linePixels x1 y1 x0 y0 := by
  obtain ⟨l, hl, hh, hlast⟩ := drawLinePath_spec x0 y0 x1 y1
  obtain ⟨m, hm, hmh, hmlast⟩ := drawLinePath_spec x1 y1 x0 y0
  unfold linePixels
  rw [hl, hm]
  simp only [Option.getD_some]
  exact ⟨mem_of_head?_eq hh, mem_of_getLast?_eq hlast,
    mem_of_getLast?_eq hmlast, mem_of_head?_eq hmh⟩

/-! ## Flood fill (`floodFill`)

The source converts both color strings to RGB with `hexToRgb`,
keeps an explicit stack of points, and loops: pop, skip when out of
bounds, skip when the pixel's channels do not all equal the target
channels, otherwise write the fill channels and push the four
4-connected neighbours. -/

/-- The `while (stack.length > 0)` loop of `floodFill`, fuel-bounded.
JS `push`/`pop` act on the array's end, so the stack is kept
top-first: the neighbours pushed as `x+1`, `x-1`, `y+1`, `y-1` are
popped starting with `(x, y-1)`.  The bounds check was just passed
when a pixel is written, so the clipping guard inside `setPix` is
vacuous there.  `none` means the fuel ran out with the stack still
non-empty (the real loop would still be running). -/
def floodLoop (w h : Nat) (t f : RGB) :
    Nat → List (Int × Int) → Buffer → Option Buffer
  | _, [], buf => some buf
  | 0, _ :: _, _ => none
  | fuel + 1, (x, y) :: rest, buf =>
    if x < 0 ∨ x ≥ (w : Int) ∨ y < 0 ∨ y ≥ (h : Int) then
      floodLoop w h t f fuel rest buf
    else if bufGet w buf x y = t then
      floodLoop w h t f fuel
        ((x, y - 1) :: (x, y + 1) :: (x - 1, y) :: (x + 1, y) :: rest)
        (setPix w h buf x y f)
    else floodLoop w h t f fuel rest buf

/-- `floodFill` from the source.  Note the early no-op guard compares
the color STRINGS (`targetColor === fillColor`), while the loop
compares parsed RGB channels; if either string fails to parse the
function returns before mutating anything. -/
def floodFill (w h : Nat) (startX startY : Int)
    (targetColor fillColor : String) (fuel : Nat) (buf : Buffer) :
    Option Buffer :=
  if targetColor = fillColor then some buf
  else
    match hexToRgb targetColor, hexToRgb fillColor with
    | some t, some f => floodLoop w h t f fuel [(startX, startY)] buf
    | _, _ => some buf

/-- On a 2×1 all-red canvas, filling with a fill color whose RGB
equals the target RGB (but whose hex string differs in case) never
drains the stack: every in-bounds pixel stays equal to the target, so
popping one keeps pushing the other back.  Stated for every stack
that contains at least one of the two canvas points. -/
theorem floodLoop_red_stuck :
    ∀ (fuel : Nat) (stack : List (Int × Int)),
      (∃ p, p ∈ stack ∧ (p = ((0 : Int), (0 : Int)) ∨ p = ((1 : Int), (0 : Int)))) →
      floodLoop 2 1 ⟨255, 0, 0⟩ ⟨255, 0, 0⟩ fuel stack
        [⟨255, 0, 0⟩, ⟨255, 0, 0⟩] = none := by
  intro fuel
  induction fuel with
  | zero =>
      intro stack hex
      obtain ⟨p, hp, _⟩ := hex
      cases stack with
      | nil => simp at hp
      | cons q rest => rfl
  | succ f ih =>
      intro stack hex
      cases stack with
      | nil =>
          obtain ⟨p, hp, _⟩ := hex
          simp at hp
      | cons q rest =>
          obtain ⟨x, y⟩ := q
          simp only [floodLoop]
          by_cases hb : x < 0 ∨ x ≥ (((2 : Nat)) : Int) ∨ y < 0 ∨ y ≥ (((1 : Nat)) : Int)
          · rw [if_pos hb]
            obtain ⟨p, hp, hpv⟩ := hex
            have hrest : p ∈ rest := by
              rcases List.mem_cons.mp hp with heq | hmem
              · exfalso
                rcases hpv with h0 | h0 <;>
                  (rw [heq] at h0; rw [Prod.mk.injEq] at h0; omega)
              · exact hmem
            exact ih rest ⟨p, hrest, hpv⟩
          · rw [if_neg hb]
            push_neg at hb
            have hx : x = 0 ∨ x = 1 := by omega
            have hy : y = 0 := by omega
            subst hy
            rcases hx with rfl | rfl
            · rw [if_pos (by decide)]
              rw [show setPix 2 1 [⟨255, 0, 0⟩, ⟨255, 0, 0⟩] 0 0 ⟨255, 0, 0⟩ =
                  [⟨255, 0, 0⟩, ⟨255, 0, 0⟩] from by decide]
              exact ih _ ⟨(1, 0), by simp, Or.inr rfl⟩
            · rw [if_pos (by decide)]
              rw [show setPix 2 1 [⟨255, 0, 0⟩, ⟨255, 0, 0⟩] 1 0 ⟨255, 0, 0⟩ =
                  [⟨255, 0, 0⟩, ⟨255, 0, 0⟩] from by decide]
              exact ih _ ⟨(0, 0), by simp, Or.inl rfl⟩

/-- C7: evaluation at the failing input.  The no-op guard of
`floodFill` compares hex strings, so for the equal color written as
`"#ff0000"` (the canvas read-back case) versus `"#FF0000"` (the
palette case) the guard does not fire, both strings parse to the same
RGB, and on a canvas whose seed region has two pixels the loop
re-pushes forever: no fuel ever suffices. -/
theorem floodFill_equal_color_hangs (fuel : Nat) :
    floodFill 2 1 0 0 "#ff0000" "#FF0000" fuel
      [⟨255, 0, 0⟩, ⟨255, 0, 0⟩] = none := by
  unfold floodFill
  rw [if_neg (by decide)]
  rw [show hexToRgb "#ff0000" = some ⟨255, 0, 0⟩ from by decide]
  rw [show hexToRgb "#FF0000" = some ⟨255, 0, 0⟩ from by decide]
  exact floodLoop_red_stuck fuel _ ⟨(0, 0), by simp, Or.inl rfl⟩

/-! ### The 4-connected target region -/

/-- 4-connectivity: `q` is the right/left/lower/upper neighbour of
`p` (the four points `floodFill` pushes). -/
def adj (p q : Int × Int) : Prop :=
  (q.1 = p.1 + 1 ∧ q.2 = p.2) ∨ (q.1 = p.1 - 1 ∧ q.2 = p.2) ∨
  (q.1 = p.1 ∧ q.2 = p.2 + 1) ∨ (q.1 = p.1 ∧ q.2 = p.2 - 1)

/-- The 4-connected region of target-colored pixels containing the
seed: the seed itself when it is in bounds and target-colored, closed
under stepping to in-bounds target-colored 4-neighbours.  Colors are
read in the ORIGINAL buffer `buf`. -/
inductive Reach (w h : Nat) (buf : Buffer) (t : RGB) (s : Int × Int) :
    Int × Int → Prop where
  | refl : inBoundsI w h s.1 s.2 → bufGet w buf s.1 s.2 = t →
      Reach w h buf t s s
  | step {p q : Int × Int} : Reach w h buf t s p → adj p q →
      inBoundsI w h q.1 q.2 → bufGet w buf q.1 q.2 = t →
      Reach w h buf t s q

theorem reach_target {w h : Nat} {buf : Buffer} {t : RGB} {s q : Int × Int}
    (hr : Reach w h buf t s q) : bufGet w buf q.1 q.2 = t := by
  cases hr with
  | refl _ h2 => exact h2
  | step _ _ _ h4 => exact h4

/-- Frame invariant of the flood-fill loop: provided every stack
point that is in bounds and target-colored (in the original buffer)
lies in the seed's region, and the current buffer differs from the
original only at region points, a completed run leaves every
in-bounds non-region pixel exactly as it was. -/
theorem floodLoop_frame (w h : Nat) (t f : RGB) (orig : Buffer)
    (seed : Int × Int) :
    ∀ (fuel : Nat) (stack : List (Int × Int)) (buf : Buffer),
    (∀ p ∈ stack, inBoundsI w h p.1 p.2 → bufGet w orig p.1 p.2 = t →
        Reach w h orig t seed p) →
    (∀ x y, inBoundsI w h x y → bufGet w buf x y ≠ bufGet w orig x y →
        Reach w h orig t seed (x, y)) →
    ∀ buf2, floodLoop w h t f fuel stack buf = some buf2 →
    ∀ qx qy, inBoundsI w h qx qy → ¬ Reach w h orig t seed (qx, qy) →
    bufGet w buf2 qx qy = bufGet w orig qx qy := by
  intro fuel
  induction fuel with
  | zero =>
      intro stack buf hstk hbuf buf2 hrun qx qy hq hout
      cases stack with
      | nil =>
          simp only [floodLoop, Option.some.injEq] at hrun
          subst hrun
          by_contra hne
          exact hout (hbuf qx qy hq hne)
      | cons p rest => exact absurd hrun (by simp [floodLoop])
  | succ fl ih =>
      intro stack buf hstk hbuf buf2 hrun qx qy hq hout
      cases stack with
      | nil =>
          simp only [floodLoop, Option.some.injEq] at hrun
          subst hrun
          by_contra hne
          exact hout (hbuf qx qy hq hne)
      | cons p rest =>
          obtain ⟨x, y⟩ := p
          simp only [floodLoop] at hrun
          by_cases hb : x < 0 ∨ x ≥ (w : Int) ∨ y < 0 ∨ y ≥ (h : Int)
          · rw [if_pos hb] at hrun
            exact ih rest buf
              (fun p hp => hstk p (List.mem_cons_of_mem _ hp))
              hbuf buf2 hrun qx qy hq hout
          · rw [if_neg hb] at hrun
            by_cases hc : bufGet w buf x y = t
            · rw [if_pos hc] at hrun
              have hxyb : inBoundsI w h x y := by
                push_neg at hb
                exact ⟨hb.1, hb.2.1, hb.2.2.1, hb.2.2.2⟩
              have hreach : Reach w h orig t seed (x, y) := by
                by_cases horig : bufGet w buf x y = bufGet w orig x y
                · exact hstk (x, y) (List.mem_cons_self _ _) hxyb
                    (horig ▸ hc)
                · exact hbuf x y hxyb horig
              refine ih _ (setPix w h buf x y f) ?_ ?_ buf2 hrun qx qy hq hout
              · -- new stack: the four neighbours, then the old rest
                intro p hp hpb hpt
                rcases List.mem_cons.mp hp with rfl | hp1
                · exact Reach.step hreach (Or.inr (Or.inr (Or.inr ⟨rfl, rfl⟩)))
                    hpb hpt
                rcases List.mem_cons.mp hp1 with rfl | hp2
                · exact Reach.step hreach (Or.inr (Or.inr (Or.inl ⟨rfl, rfl⟩)))
                    hpb hpt
                rcases List.mem_cons.mp hp2 with rfl | hp3
                · exact Reach.step hreach (Or.inr (Or.inl ⟨rfl, rfl⟩)) hpb hpt
                rcases List.mem_cons.mp hp3 with rfl | hp4
                · exact Reach.step hreach (Or.inl ⟨rfl, rfl⟩) hpb hpt
                · exact hstk p (List.mem_cons_of_mem _ hp4) hpb hpt
              · -- new buffer: differs from the original only inside the region
                intro a b hab hne
                by_cases heq : a = x ∧ b = y
                · obtain ⟨rfl, rfl⟩ := heq
                  exact hreach
                · rw [bufGet_setPix_ne f hab heq] at hne
                  exact hbuf a b hab hne
            · rw [if_neg hc] at hrun
              exact ih rest buf
                (fun p hp => hstk p (List.mem_cons_of_mem _ hp))
                hbuf buf2 hrun qx qy hq hout

/-- C8: for every seed and every target/fill color pair, a completed
`floodFill` run leaves every in-bounds pixel outside the 4-connected
target-colored region of the seed unchanged (when the target string
does not parse the whole buffer is untouched, hence the hypothesis is
phrased for every successful parse). -/
theorem floodFill_frame (w h : Nat) (startX startY : Int)
    (targetColor fillColor : String) (fuel : Nat) (buf buf2 : Buffer)
    (hrun : floodFill w h startX startY targetColor fillColor fuel buf
      = some buf2)
    (qx qy : Int) (hq : inBoundsI w h qx qy)
    (hout : ∀ t, hexToRgb targetColor = some t →
      ¬ Reach w h buf t (startX, startY) (qx, qy)) :
    bufGet w buf2 qx qy = bufGet w buf qx qy := by
  unfold floodFill at hrun
  by_cases hstr : targetColor = fillColor
  · rw [if_pos hstr] at hrun
    cases hrun
    rfl
  · rw [if_neg hstr] at hrun
    cases htc : hexToRgb targetColor with
    | none =>
        rw [htc] at hrun
        cases hfc : hexToRgb fillColor with
        | none => rw [hfc] at hrun; cases hrun; rfl
        | some fc => rw [hfc] at hrun; cases hrun; rfl
    | some tc =>
        rw [htc] at hrun
        cases hfc : hexToRgb fillColor with
        | none => rw [hfc] at hrun; cases hrun; rfl
        | some fc =>
            rw [hfc] at hrun
            refine floodLoop_frame w h tc fc buf (startX, startY) fuel
              [(startX, startY)] buf ?_ ?_ buf2 hrun qx qy hq
              (hout tc htc)
            · intro p hp hpb hpt
              have hps : p = (startX, startY) := by simpa using hp
              subst hps
              exact Reach.refl hpb hpt
            · intro a b hab hne
              exact absurd rfl hne

/-- Witness for C8: on a 2×2 canvas with a single black seed pixel
and white elsewhere, filling black with red leaves the white pixel
`(1,0)` (outside the seed's region) unchanged. -/
theorem floodFill_frame_witness :
    bufGet 2 [⟨255, 0, 0⟩, ⟨255, 255, 255⟩, ⟨255, 255, 255⟩, ⟨255, 255, 255⟩] 1 0 =
    bufGet 2 [⟨0, 0, 0⟩, ⟨255, 255, 255⟩, ⟨255, 255, 255⟩, ⟨255, 255, 255⟩] 1 0 := by
  have hrun : floodFill 2 2 0 0 "#000000" "#ff0000" 20
      [⟨0, 0, 0⟩, ⟨255, 255, 255⟩, ⟨255, 255, 255⟩, ⟨255, 255, 255⟩] =
      some [⟨255, 0, 0⟩, ⟨255, 255, 255⟩, ⟨255, 255, 255⟩, ⟨255, 255, 255⟩] := by
    decide
  refine floodFill_frame 2 2 0 0 "#000000" "#ff0000" 20 _ _ hrun 1 0
    (by decide) ?_
  intro t ht hreach
  rw [show hexToRgb "#000000" = some ⟨0, 0, 0⟩ from by decide,
    Option.some.injEq] at ht
  subst ht
  have htgt := reach_target hreach
  exact absurd htgt (by decide)

/-! ## Circle rasterization (`drawCircle`), filled mode

The filled branch iterates the bounding box `[-r, r] × [-r, r]`
(outer loop `y`, inner loop `x`), tests `x*x + y*y <= r*r`, bounds
checks `(cx+x, cy+y)` against the canvas, and plots via `drawPixel`. -/

/-- One row `y` of the filled-circle double loop. -/
def circleRow (w h : Nat) (cx cy : Int) (r : Nat) (color : String)
    (y : Int) (buf : Buffer) : Buffer :=
  (intRange (-(r : Int)) r).foldl (fun b x =>
    if x * x + y * y ≤ (r : Int) * (r : Int) then
      if inBoundsI w h (cx + x) (cy + y) then
        drawPixel w h b (cx + x) (cy + y) color
      else b
    else b) buf

/-- The filled branch of `drawCircle`. -/
def drawCircleFilled (w h : Nat) (cx cy : Int) (r : Nat) (color : String)
    (buf : Buffer) : Buffer :=
  (intRange (-(r : Int)) r).foldl
    (fun b y => circleRow w h cx cy r color y b) buf

/-- A row of plots with a parsed color, for reasoning: identical to
`circleRow` once the color string parses (shown in
`circleRow_eq_set`). -/
def circleRowSet (w h : Nat) (cx cy : Int) (r : Nat) (c : RGB)
    (y : Int) (xs : List Int) (buf : Buffer) : Buffer :=
  xs.foldl (fun b x =>
    if x * x + y * y ≤ (r : Int) * (r : Int) then
      if inBoundsI w h (cx + x) (cy + y) then
        setPix w h b (cx + x) (cy + y) c
      else b
    else b) buf

theorem circleRow_eq_set {w h : Nat} {cx cy : Int} {r : Nat}
    {color : String} {c : RGB} (hc : hexToRgb color = some c)
    (y : Int) (buf : Buffer) :
    circleRow w h cx cy r color y buf =
    circleRowSet w h cx cy r c y (intRange (-(r : Int)) r) buf := by
  unfold circleRow circleRowSet
  apply List.foldl_ext
  intro b x _
  unfold drawPixel
  rw [hc]

theorem circleRowSet_length (w h : Nat) (cx cy : Int) (r : Nat) (c : RGB)
    (y : Int) :
    ∀ (xs : List Int) (buf : Buffer),
    (circleRowSet w h cx cy r c y xs buf).length = (buf : List RGB).length := by
  intro xs
  induction xs with
  | nil => intro buf; rfl
  | cons x xs ih =>
      intro buf
      unfold circleRowSet at ih ⊢
      rw [List.foldl_cons, ih]
      split
      · split
        · exact length_setPix ..
        · rfl
      · rfl

theorem circleRowSet_pixelAt (w h : Nat) (cx cy : Int) (r : Nat) (c : RGB)
    (y : Int) :
    ∀ (xs : List Int) (buf : Buffer),
    (buf : List RGB).length = w * h →
    ∀ qx qy, pixelAt w h (circleRowSet w h cx cy r c y xs buf) qx qy =
      if (∃ x ∈ xs, x * x + y * y ≤ (r : Int) * (r : Int) ∧
          cx + x = qx ∧ cy + y = qy ∧ inBoundsI w h qx qy) then some c
      else pixelAt w h buf qx qy := by
  intro xs
  induction xs with
  | nil =>
      intro buf hlen qx qy
      rw [if_neg (by simp)]
      rfl
  | cons x xs ih =>
      intro buf hlen qx qy
      unfold circleRowSet at ih ⊢
      rw [List.foldl_cons]
      set b1 : Buffer := (if x * x + y * y ≤ (r : Int) * (r : Int) then
          if inBoundsI w h (cx + x) (cy + y) then
            setPix w h buf (cx + x) (cy + y) c
          else buf
        else buf) with hb1
      have hlen1 : (b1 : List RGB).length = w * h := by
        rw [hb1]
        split
        · split
          · rw [length_setPix]; exact hlen
          · exact hlen
        · exact hlen
      rw [ih b1 hlen1 qx qy]
      by_cases htail : ∃ x2 ∈ xs, x2 * x2 + y * y ≤ (r : Int) * (r : Int) ∧
          cx + x2 = qx ∧ cy + y = qy ∧ inBoundsI w h qx qy
      · rw [if_pos htail, if_pos ?_]
        obtain ⟨x2, hx2, hrest⟩ := htail
        exact ⟨x2, List.mem_cons_of_mem _ hx2, hrest⟩
      · rw [if_neg htail]
        by_cases hhead : x * x + y * y ≤ (r : Int) * (r : Int) ∧
            cx + x = qx ∧ cy + y = qy ∧ inBoundsI w h qx qy
        · obtain ⟨hin, hqx, hqy, hqb⟩ := hhead
          rw [if_pos ⟨x, List.mem_cons_self _ _, hin, hqx, hqy, hqb⟩]
          rw [hb1, if_pos hin, if_pos (by rw [hqx, hqy]; exact hqb)]
          rw [hqx, hqy]
          exact pixelAt_setPix_self c hqb hlen
        · rw [if_neg ?_]
          swap
          · rintro ⟨x2, hx2m, hrest⟩
            rcases List.mem_cons.mp hx2m with rfl | hmem
            · exact hhead hrest
            · exact htail ⟨x2, hmem, hrest⟩
          rw [hb1]
          split
          · rename_i hin
            split
            · rename_i hbnd
              apply pixelAt_setPix_ne
              rintro ⟨rfl, rfl⟩
              exact hhead ⟨hin, rfl, rfl, hbnd⟩
            · rfl
          · rfl

theorem circleColFold_pixelAt (w h : Nat) (cx cy : Int) (r : Nat) (c : RGB)
    (color : String) (hc : hexToRgb color = some c) :
    ∀ (ys : List Int) (buf : Buffer),
    (buf : List RGB).length = w * h →
    ∀ qx qy, pixelAt w h
      (ys.foldl (fun b y => circleRow w h cx cy r color y b) buf) qx qy =
      if (∃ y ∈ ys, ∃ x ∈ intRange (-(r : Int)) r,
          x * x + y * y ≤ (r : Int) * (r : Int) ∧
          cx + x = qx ∧ cy + y = qy ∧ inBoundsI w h qx qy) then some c
      else pixelAt w h buf qx qy := by
  intro ys
  induction ys with
  | nil =>
      intro buf hlen qx qy
      rw [if_neg (by simp)]
      rfl
  | cons y ys ih =>
      intro buf hlen qx qy
      rw [List.foldl_cons]
      have hlen1 : (circleRow w h cx cy r color y buf : List RGB).length = w * h := by
        rw [circleRow_eq_set hc, circleRowSet_length]
        exact hlen
      rw [ih _ hlen1 qx qy]
      by_cases htail : ∃ y2 ∈ ys, ∃ x ∈ intRange (-(r : Int)) r,
          x * x + y2 * y2 ≤ (r : Int) * (r : Int) ∧
          cx + x = qx ∧ cy + y2 = qy ∧ inBoundsI w h qx qy
      · rw [if_pos htail, if_pos ?_]
        obtain ⟨y2, hy2, hrest⟩ := htail
        exact ⟨y2, List.mem_cons_of_mem _ hy2, hrest⟩
      · rw [if_neg htail]
        rw [circleRow_eq_set hc, circleRowSet_pixelAt w h cx cy r c y _ buf hlen qx qy]
        by_cases hhead : ∃ x ∈ intRange (-(r : Int)) r,
            x * x + y * y ≤ (r : Int) * (r : Int) ∧
            cx + x = qx ∧ cy + y = qy ∧ inBoundsI w h qx qy
        · rw [if_pos hhead, if_pos ⟨y, List.mem_cons_self _ _, hhead⟩]
        · rw [if_neg hhead, if_neg ?_]
          rintro ⟨y2, hy2m, hrest⟩
          rcases List.mem_cons.mp hy2m with rfl | hmem
          · exact hhead hrest
          · exact htail ⟨y2, hmem, hrest⟩

theorem abs_le_of_sq_le {a : Int} {r : Nat} (h : a * a ≤ (r : Int) * (r : Int)) :
    -(r : Int) ≤ a ∧ a ≤ (r : Int) := by
  constructor
  · nlinarith [mul_self_nonneg (a + (r : Int)), mul_self_nonneg (a - (r : Int)),
      Int.natCast_nonneg r]
  · nlinarith [mul_self_nonneg (a + (r : Int)), mul_self_nonneg (a - (r : Int)),
      Int.natCast_nonneg r]

/-- C9: filled-circle rasterization with center `(cx, cy)` and radius
`r ≥ 0` sets exactly the in-bounds pixels at distance
`(qx-cx)² + (qy-cy)² ≤ r²` to the drawn color, and leaves every other
pixel unchanged. -/
theorem drawCircleFilled_pixels (w h : Nat) (cx cy : Int) (r : Nat)
    (color : String) (c : RGB) (hc : hexToRgb color = some c)
    (buf : Buffer) (hlen : (buf : List RGB).length = w * h) (qx qy : Int) :
    pixelAt w h (drawCircleFilled w h cx cy r color buf) qx qy =
    if (inBoundsI w h qx qy ∧
        (qx - cx) * (qx - cx) + (qy - cy) * (qy - cy) ≤ (r : Int) * (r : Int))
    then some c
    else pixelAt w h buf qx qy := by
  unfold drawCircleFilled
  rw [circleColFold_pixelAt w h cx cy r c color hc _ buf hlen qx qy]
  refine if_congr ?_ rfl rfl
  constructor
  · rintro ⟨y, _, x, _, hle, hqx, hqy, hin⟩
    have hx2 : x = qx - cx := by omega
    have hy2 : y = qy - cy := by omega
    rw [hx2, hy2] at hle
    exact ⟨hin, hle⟩
  · rintro ⟨hin, hdist⟩
    have hxr := abs_le_of_sq_le (a := qx - cx) (r := r)
      (by nlinarith [mul_self_nonneg (qy - cy)])
    have hyr := abs_le_of_sq_le (a := qy - cy) (r := r)
      (by nlinarith [mul_self_nonneg (qx - cx)])
    exact ⟨qy - cy, mem_intRange.mpr ⟨by omega, by omega⟩,
      qx - cx, mem_intRange.mpr ⟨by omega, by omega⟩,
      hdist, by ring, by ring, hin⟩

/-- Witness for C9: on a white 3×3 canvas, a filled red circle of
radius 1 centered at `(1,1)` turns `(2,1)` red (distance 1 ≤ r). -/
theorem drawCircleFilled_pixels_witness :
    pixelAt 3 3 (drawCircleFilled 3 3 1 1 1 "#ff0000"
      (List.replicate 9 ⟨255, 255, 255⟩)) 2 1 =
    if (inBoundsI 3 3 2 1 ∧
        ((2 : Int) - 1) * ((2 : Int) - 1) + ((1 : Int) - 1) * ((1 : Int) - 1) ≤
          (((1 : Nat)) : Int) * (((1 : Nat)) : Int))
    then some ⟨255, 0, 0⟩
    else pixelAt 3 3 (List.replicate 9 ⟨255, 255, 255⟩) 2 1 :=
  drawCircleFilled_pixels 3 3 1 1 1 "#ff0000" ⟨255, 0, 0⟩ (by decide)
    (List.replicate 9 ⟨255, 255, 255⟩) (by decide) 2 1

/-! ## History (`saveToHistory`, `undo`, `redo`)

The component state is `history : HistoryEntry[]` and
`historyIndex : number`, starting `[]` and `-1`.  Entries carry the
full `getImageData` snapshot (and a `Date.now()` timestamp no
behavior reads; it is omitted here). -/

/-- The update `saveToHistory` applies to `(history, historyIndex)`:
`newHistory = prev.slice(0, historyIndex + 1)`, `push(newEntry)`,
keep only the last 50 (`slice(-50)`), and increment the index by one
— with no adjustment when the slice evicted the oldest entry. -/
def capture {α : Type} (hist : List α) (idx : Int) (e : α) : List α × Int :=
  let h1 := (hist.take (idx + 1).toNat).concat e
  (h1.drop (h1.length - 50), idx + 1)

/-- 60 successive captures of distinct snapshots starting from the
initial state (`history = []`, `historyIndex = -1`). -/
def captureAll (n : Nat) : List Nat × Int :=
  (List.range n).foldl (fun s k => capture s.1 s.2 k) ([], -1)

/-- C1, evaluation at the failing input: starting from an empty
history, 60 successive captures leave exactly the newest 50 entries
(the oldest 10 were evicted) — but the history index ends at 59, ten
past the last valid position 49, because `saveToHistory` never
rebases the index when `slice(-50)` drops an entry. -/
theorem capture_60_leaves_index_59 :
    captureAll 60 = ((List.range 60).drop 10, 59) ∧
    (captureAll 60).1.length = 50 := by
  set_option maxRecDepth 10000 in decide

/-- When the index sits at the top of a history below capacity, one
capture appends one entry and advances the index. -/
theorem capture_length {α : Type} (hist : List α) (idx : Int) (e : α)
    (hidx : idx = (hist.length : Int) - 1) (hcap : hist.length + 1 ≤ 50) :
    ((capture hist idx e).1).length = hist.length + 1 ∧
    (capture hist idx e).2 = idx + 1 := by
  unfold capture
  refine ⟨?_, rfl⟩
  have htake : hist.take (idx + 1).toNat = hist :=
    List.take_all_of_le (by omega)
  simp only [htake, List.length_drop, List.length_concat]
  omega

/-! ## The editor state and the mouse handlers -/

/-- The tool enumeration from the source. -/
inductive Tool where
  | pencil
  | eraser
  | fill
  | line
  | rectangle
  | circle
  | eyedropper
  | select
  deriving DecidableEq

/-- The component state the gesture handlers read and write.  The
canvas backing store is `buffer`; history entries are the `imageData`
snapshots `saveToHistory` captures.  UI-only state (zoom, grid,
window position, palette, the persistence key-value cache) is not
part of the engine and is omitted. -/
structure EditorState where
  canvasW : Nat
  canvasH : Nat
  activeTool : Tool
  foregroundColor : String
  backgroundColor : String
  isDrawing : Bool
  startPoint : Int × Int
  currentPoint : Int × Int
  history : List Buffer
  historyIndex : Int
  buffer : Buffer
  deriving DecidableEq

/-- `saveToHistory` on the component state: captures the current
canvas contents. -/
def saveToHistory (s : EditorState) : EditorState :=
  let p := capture s.history s.historyIndex s.buffer
  { s with history := p.1, historyIndex := p.2 }

/-- `getPixelColor`: reads the 1×1 `ImageData` at `(x, y)` and
renders it as a lowercase `#rrggbb` string (an out-of-canvas read
yields zero channels, hence black). -/
def getPixelColor (s : EditorState) (x y : Int) : String :=
  rgbToHex ((pixelAt s.canvasW s.canvasH s.buffer x y).getD RGB.black)

/-- How a history operation can fail. -/
inductive HistFailure where
  | noHistory
  | entryMissing
  deriving DecidableEq

/-- `undo`: the guard `historyIndex <= 0` returns without touching
anything — the spec's `NoHistory` failure.  Otherwise the entry at
`historyIndex - 1` is written back to the canvas (`putImageData`) and
the index decremented.  `entryMissing` models the TypeError the code
would raise reading `history[historyIndex - 1].imageData` when that
index is out of range (reachable after capacity evictions, see C1). -/
def undo (s : EditorState) : Except HistFailure EditorState :=
  if s.historyIndex ≤ 0 then .error .noHistory
  else
    match s.history.get? (s.historyIndex - 1).toNat with
    | none => .error .entryMissing
    | some entry =>
        .ok { s with buffer := entry, historyIndex := s.historyIndex - 1 }

/-- The state the caller observes after `undo` — unchanged when the
handler returned early. -/
def undoApply (s : EditorState) : EditorState :=
  match undo s with
  | .ok s2 => s2
  | .error _ => s

/-- `redo`: fails when `historyIndex >= history.length - 1`, else
restores the entry at `historyIndex + 1` and increments the index. -/
def redo (s : EditorState) : Except HistFailure EditorState :=
  if s.historyIndex ≥ (s.history.length : Int) - 1 then .error .noHistory
  else
    match s.history.get? (s.historyIndex + 1).toNat with
    | none => .error .entryMissing
    | some entry =>
        .ok { s with buffer := entry, historyIndex := s.historyIndex + 1 }

/-- C4: calling `undo` when the history index is ≤ 0 fails with
`NoHistory` (the code's guarded early return) and leaves the state —
in particular the pixel buffer — untouched. -/
theorem undo_noHistory (s : EditorState) (hidx : s.historyIndex ≤ 0) :
    undo s = .error .noHistory ∧ undoApply s = s := by
  constructor
  · unfold undo
    rw [if_pos hidx]
  · unfold undoApply undo
    rw [if_pos hidx]

/-- Witness for C4 at the initial state (empty history, index -1). -/
theorem undo_noHistory_witness :
    undo ⟨32, 32, .pencil, "#000000", "#FFFFFF", false, (0, 0), (0, 0),
        [], -1, List.replicate 4 RGB.black⟩ = .error .noHistory ∧
    undoApply ⟨32, 32, .pencil, "#000000", "#FFFFFF", false, (0, 0), (0, 0),
        [], -1, List.replicate 4 RGB.black⟩ =
      ⟨32, 32, .pencil, "#000000", "#FFFFFF", false, (0, 0), (0, 0),
        [], -1, List.replicate 4 RGB.black⟩ :=
  undo_noHistory _ (by decide)

/-! ### The remaining rasterizers, acting on the canvas buffer -/

/-- `drawLine` as a buffer transformation: the loop plots each pixel
of its path through `drawPixel` in order, which equals folding the
plotted list (`drawLinePath` is always `some`, see
`drawLinePath_spec`; the `getD` default never fires). -/
def drawLine (w h : Nat) (x0 y0 x1 y1 : Int) (color : String)
    (buf : Buffer) : Buffer :=
  (linePixels x0 y0 x1 y1).foldl (fun b p => drawPixel w h b p.1 p.2 color) buf

/-- `drawRect`: corners normalized with min/max; filled mode fills
the closed rectangle row by row, outline mode draws the top and
bottom rows then the left and right columns. -/
def drawRect (w h : Nat) (x0 y0 x1 y1 : Int) (color : String)
    (filled : Bool) (buf : Buffer) : Buffer :=
  let left := min x0 x1
  let right := max x0 x1
  let top := min y0 y1
  let bottom := max y0 y1
  if filled then
    (intRange top bottom).foldl (fun b y =>
      (intRange left right).foldl (fun b2 x => drawPixel w h b2 x y color) b) buf
  else
    let b1 := (intRange left right).foldl (fun b x =>
      drawPixel w h (drawPixel w h b x top color) x bottom color) buf
    (intRange top bottom).foldl (fun b y =>
      drawPixel w h (drawPixel w h b left y color) right y color) b1

/-- `plotPoints` inside `drawCircle`: the eight symmetric points, in
source order, each bounds-checked before plotting. -/
def plotPoints (w h : Nat) (color : String) (cx cy x y : Int)
    (buf : Buffer) : Buffer :=
  ([(cx + x, cy + y), (cx - x, cy + y), (cx + x, cy - y), (cx - x, cy - y),
    (cx + y, cy + x), (cx - y, cy + x), (cx + y, cy - x), (cx - y, cy - x)]
    : List (Int × Int)).foldl
    (fun b p =>
      if inBoundsI w h p.1 p.2 then drawPixel w h b p.1 p.2 color else b) buf

/-- The `while (y >= x)` loop of the outline (midpoint) circle:
increment `x`, update `y` and the decision variable `d` (using the
already-updated coordinates), plot the eight points.  `x` grows by
one per iteration and `y` never grows, so `r + 2` fuel always covers
the at most `r + 1` iterations. -/
def circleOutlineLoop (w h : Nat) (color : String) (cx cy : Int) :
    Nat → Int → Int → Int → Buffer → Buffer
  | 0, _, _, _, buf => buf
  | fuel + 1, x, y, d, buf =>
    if y ≥ x then
      if d > 0 then
        circleOutlineLoop w h color cx cy fuel (x + 1) (y - 1)
          (d + 4 * ((x + 1) - (y - 1)) + 10)
          (plotPoints w h color cx cy (x + 1) (y - 1) buf)
      else
        circleOutlineLoop w h color cx cy fuel (x + 1) y
          (d + 4 * (x + 1) + 6)
          (plotPoints w h color cx cy (x + 1) y buf)
    else buf

/-- The outline branch of `drawCircle`: start at
`x = 0, y = r, d = 3 - 2r`, plot, then loop. -/
def drawCircleOutline (w h : Nat) (cx cy : Int) (r : Nat) (color : String)
    (buf : Buffer) : Buffer :=
  circleOutlineLoop w h color cx cy (r + 2) 0 (r : Int) (3 - 2 * (r : Int))
    (plotPoints w h color cx cy 0 (r : Int) buf)

/-- `drawCircle` with its `filled` flag. -/
def drawCircle (w h : Nat) (cx cy : Int) (r : Nat) (color : String)
    (filled : Bool) (buf : Buffer) : Buffer :=
  if filled then drawCircleFilled w h cx cy r color buf
  else drawCircleOutline w h cx cy r color buf

/-! ### The mouse gesture handlers -/

/-- `handleMouseDown`.  The event coordinate is already clamped to
the canvas by `getPixelCoords`; `p` is that pixel.  Note that
`setIsDrawing(true)` runs BEFORE the tool dispatch, for every tool
— including fill and eyedropper, which then return early.  The
`saveCanvas` persistence call is UI plumbing with no engine state.
`fuel` bounds the flood-fill loop; a fill whose loop exhausts the
fuel is modelled as leaving the canvas as-is (the real code would
simply never return, see `floodFill_equal_color_hangs`). -/
def handleMouseDown (fuel : Nat) (s : EditorState) (p : Int × Int) :
    EditorState :=
  let s1 := { s with startPoint := p, currentPoint := p, isDrawing := true }
  match s1.activeTool with
  | .eyedropper => { s1 with foregroundColor := getPixelColor s1 p.1 p.2 }
  | .fill =>
      let targetColor := getPixelColor s1 p.1 p.2
      let s2 := { s1 with buffer :=
        (floodFill s1.canvasW s1.canvasH p.1 p.2 targetColor
          s1.foregroundColor fuel s1.buffer).getD s1.buffer }
      saveToHistory s2
  | .pencil =>
      { s1 with buffer :=
        drawPixel s1.canvasW s1.canvasH s1.buffer p.1 p.2 s1.foregroundColor }
  | .eraser =>
      { s1 with buffer :=
        drawPixel s1.canvasW s1.canvasH s1.buffer p.1 p.2 s1.backgroundColor }
  | _ => s1

/-- `handleMouseUp`: returns unchanged unless a gesture is active;
commits line/rectangle/circle from `startPoint` to the release point
(circle radius = floored Euclidean distance), clears the preview
overlay (no engine state), resets `isDrawing` and ALWAYS captures
history once. -/
def handleMouseUp (s : EditorState) (p : Int × Int) : EditorState :=
  if s.isDrawing = false then s
  else
    let s2 :=
      match s.activeTool with
      | .line =>
          { s with buffer := (drawLine s.canvasW s.canvasH
              s.startPoint.1 s.startPoint.2 p.1 p.2 s.foregroundColor s.buffer) }
      | .rectangle =>
          { s with buffer := (drawRect s.canvasW s.canvasH
              s.startPoint.1 s.startPoint.2 p.1 p.2 s.foregroundColor false
              s.buffer) }
      | .circle =>
          let radius := Nat.sqrt (((p.1 - s.startPoint.1) * (p.1 - s.startPoint.1)
            + (p.2 - s.startPoint.2) * (p.2 - s.startPoint.2)).toNat)
          { s with buffer := (drawCircle s.canvasW s.canvasH
              s.startPoint.1 s.startPoint.2 radius s.foregroundColor false
              s.buffer) }
      | _ => s
    saveToHistory { s2 with isDrawing := false }

/-! ### Gesture-level history accounting (fill and eyedropper) -/

/-- A 2×1 all-black canvas about to be filled with red, with the
initial history snapshot already captured (as the app does on
mount). -/
def fillDemoState : EditorState :=
  ⟨2, 1, .fill, "#ff0000", "#ffffff", false, (0, 0), (0, 0),
    [[⟨0, 0, 0⟩, ⟨0, 0, 0⟩]], 0, [⟨0, 0, 0⟩, ⟨0, 0, 0⟩]⟩

/-- C2, counterexample: a completed fill gesture does NOT capture
exactly one history entry.  On `fillDemoState` the gesture appends
two entries (press captures after the flood fill, and the release
handler, seeing `isDrawing = true`, captures again), not one. -/
theorem fill_gesture_counterexample :
    (handleMouseUp (handleMouseDown 20 fillDemoState (0, 0)) (0, 0)).history.length
      ≠ fillDemoState.history.length + 1 := by decide

/-- Two successive captures at the top of a history at least two
below capacity append two entries and advance the index twice. -/
theorem capture_twice_length {α : Type} (hist : List α) (idx : Int) (e1 e2 : α)
    (hidx : idx = (hist.length : Int) - 1) (hcap : hist.length + 2 ≤ 50) :
    ((capture (capture hist idx e1).1 (capture hist idx e1).2 e2).1).length
      = hist.length + 2 ∧
    (capture (capture hist idx e1).1 (capture hist idx e1).2 e2).2
      = idx + 2 := by
  have h1 := capture_length hist idx e1 hidx (by omega)
  have h2 := capture_length (capture hist idx e1).1 (capture hist idx e1).2 e2
    (by rw [h1.1, h1.2, hidx]; push_cast; ring) (by rw [h1.1]; omega)
  rw [h2.1, h2.2, h1.1, h1.2]
  omega

/-- C2 (amended): a completed fill gesture performs exactly TWO
history captures — one at press immediately after the flood fill,
and a second at release, because the press already set the dragging
flag that makes the release handler capture unconditionally.  Stated
for any state whose index sits at the top of a history at least two
below capacity. -/
theorem fill_gesture_two_captures (fuel : Nat) (s : EditorState)
    (p q : Int × Int) (htool : s.activeTool = .fill)
    (hidx : s.historyIndex = (s.history.length : Int) - 1)
    (hcap : s.history.length + 2 ≤ 50) :
    (handleMouseUp (handleMouseDown fuel s p) q).history.length
      = s.history.length + 2 ∧
    (handleMouseUp (handleMouseDown fuel s p) q).historyIndex
      = s.historyIndex + 2 := by
  obtain ⟨cw, ch, tool, fg, bg, isd, sp, cp, hist, idx, buf⟩ := s
  simp only [EditorState.mk.injEq] at htool
  dsimp only at htool hidx hcap
  subst htool
  simp only [handleMouseDown, handleMouseUp, saveToHistory]
  rw [if_neg (show ¬(true = false) by decide)]
  exact capture_twice_length hist idx _ _ hidx hcap

/-- Witness for C2 (amended) on the concrete demo state. -/
theorem fill_gesture_two_captures_witness :
    (handleMouseUp (handleMouseDown 20 fillDemoState (0, 0)) (0, 0)).history.length
      = fillDemoState.history.length + 2 ∧
    (handleMouseUp (handleMouseDown 20 fillDemoState (0, 0)) (0, 0)).historyIndex
      = fillDemoState.historyIndex + 2 :=
  fill_gesture_two_captures 20 fillDemoState (0, 0) (0, 0) (by decide)
    (by decide) (by decide)

/-- A 2×1 all-black canvas with the eyedropper active and a red
foreground, with the initial history snapshot already captured. -/
def eyedropperDemoState : EditorState :=
  ⟨2, 1, .eyedropper, "#ff0000", "#ffffff", false, (0, 0), (0, 0),
    [[⟨0, 0, 0⟩, ⟨0, 0, 0⟩]], 0, [⟨0, 0, 0⟩, ⟨0, 0, 0⟩]⟩

/-- C3, counterexample: an eyedropper gesture DOES capture a history
entry.  On `eyedropperDemoState` the release handler, seeing the
dragging flag the press set, performs its unconditional capture, so
the history grows by one where the claim says it must not grow. -/
theorem eyedropper_gesture_counterexample :
    (handleMouseUp (handleMouseDown 20 eyedropperDemoState (0, 0)) (0, 0)).history.length
      ≠ eyedropperDemoState.history.length := by decide

/-- C3 (amended): an eyedropper gesture leaves the pixel buffer
unchanged and sets the foreground color to the (lowercase-hex
read-back of the) color at the pressed pixel — but one history
capture does occur at release, because the press set the dragging
flag that makes the release handler capture unconditionally. -/
theorem eyedropper_gesture (fuel : Nat) (s : EditorState) (p q : Int × Int)
    (htool : s.activeTool = .eyedropper)
    (hidx : s.historyIndex = (s.history.length : Int) - 1)
    (hcap : s.history.length + 1 ≤ 50) :
    (handleMouseUp (handleMouseDown fuel s p) q).buffer = s.buffer ∧
    (handleMouseUp (handleMouseDown fuel s p) q).foregroundColor =
      rgbToHex ((pixelAt s.canvasW s.canvasH s.buffer p.1 p.2).getD RGB.black) ∧
    (handleMouseUp (handleMouseDown fuel s p) q).history.length
      = s.history.length + 1 := by
  obtain ⟨cw, ch, tool, fg, bg, isd, sp, cp, hist, idx, buf⟩ := s
  dsimp only at htool hidx hcap
  subst htool
  simp only [handleMouseDown, handleMouseUp, saveToHistory, getPixelColor]
  rw [if_neg (show ¬(true = false) by decide)]
  exact ⟨rfl, rfl, (capture_length hist idx buf hidx hcap).1⟩

/-- Witness for C3 (amended) on the concrete demo state. -/
theorem eyedropper_gesture_witness :
    (handleMouseUp (handleMouseDown 20 eyedropperDemoState (0, 0)) (0, 0)).buffer
      = eyedropperDemoState.buffer ∧
    (handleMouseUp (handleMouseDown 20 eyedropperDemoState (0, 0)) (0, 0)).foregroundColor
      = rgbToHex ((pixelAt eyedropperDemoState.canvasW eyedropperDemoState.canvasH
          eyedropperDemoState.buffer 0 0).getD RGB.black) ∧
    (handleMouseUp (handleMouseDown 20 eyedropperDemoState (0, 0)) (0, 0)).history.length
      = eyedropperDemoState.history.length + 1 :=
  eyedropper_gesture 20 eyedropperDemoState (0, 0) (0, 0) (by decide)
    (by decide) (by decide)

/-! ## Clipboard / selection

The repository declares the selection and clipboard state
(`App.tsx` lines 49-50: `selection`, `clipboard`) but contains no
copy or paste implementation; the operations below are modelled from
the spec (§4.5 Clipboard/Selection). -/

/-- An owned clipboard block: width, height and a dense row-major
pixel copy, independent of the buffer it came from. -/
structure Clip where
  w : Nat
  h : Nat
  data : List RGB
  deriving DecidableEq

/-- Modelled from the spec: `copy(buffer, selection)` extracts a
dense row-major pixel block for the normalized selection rectangle
(two corner points, normalized with min/max to
top-left/bottom-right).  Missing from the source: only the clipboard
state is declared. -/
def copySel (w h : Nat) (buf : Buffer) (p1 p2 : Int × Int) : Clip :=
  let left := min p1.1 p2.1
  let top := min p1.2 p2.2
  let right := max p1.1 p2.1
  let bottom := max p1.2 p2.2
  let cw := (right - left + 1).toNat
  let chh := (bottom - top + 1).toNat
  { w := cw, h := chh,
    data := (List.range (chh * cw)).map (fun k =>
      bufGet w buf (left + ((k % cw : Nat) : Int)) (top + ((k / cw : Nat) : Int))) }

/-- Failures of the clipboard operations. -/
inductive ClipError where
  | emptyClipboard
  deriving DecidableEq

/-- Modelled from the spec: `paste(buffer, destinationPoint)` writes
the clipboard block with its top-left at the destination point,
clipping any portion that falls outside buffer bounds (`setPix`
clips); fails with `EmptyClipboard` when nothing has been copied.
Missing from the source: only the clipboard state is declared.  The
block is written pixel `k` at offset `(k % w, k / w)`, row-major. -/
def paste (w h : Nat) (buf : Buffer) (clipboard : Option Clip)
    (dest : Int × Int) : Except ClipError Buffer :=
  match clipboard with
  | none => .error .emptyClipboard
  | some clip =>
      .ok ((List.range (clip.h * clip.w)).foldl (fun b k =>
        setPix w h b (dest.1 + ((k % clip.w : Nat) : Int))
          (dest.2 + ((k / clip.w : Nat) : Int))
          ((clip.data.get? k).getD RGB.black)) buf)

theorem pasteFold_pixelAt (w h cw : Nat) (dxv dyv : Int) (v : Nat → RGB) :
    ∀ (ks : List Nat) (b : Buffer), (b : List RGB).length = w * h →
    ∀ qx qy, pixelAt w h
      (ks.foldl (fun b2 k => setPix w h b2 (dxv + ((k % cw : Nat) : Int))
        (dyv + ((k / cw : Nat) : Int)) (v k)) b) qx qy =
      if (∃ k ∈ ks, dxv + ((k % cw : Nat) : Int) = qx ∧
          dyv + ((k / cw : Nat) : Int) = qy ∧ inBoundsI w h qx qy)
      then some (v ((qy - dyv).toNat * cw + (qx - dxv).toNat))
      else pixelAt w h b qx qy := by
  intro ks
  induction ks with
  | nil =>
      intro b hlen qx qy
      rw [if_neg (by simp)]
      rfl
  | cons k ks ih =>
      intro b hlen qx qy
      rw [List.foldl_cons]
      have hlen1 : (setPix w h b (dxv + ((k % cw : Nat) : Int))
          (dyv + ((k / cw : Nat) : Int)) (v k) : List RGB).length = w * h := by
        rw [length_setPix]; exact hlen
      rw [ih _ hlen1 qx qy]
      by_cases htail : ∃ k2 ∈ ks, dxv + ((k2 % cw : Nat) : Int) = qx ∧
          dyv + ((k2 / cw : Nat) : Int) = qy ∧ inBoundsI w h qx qy
      · rw [if_pos htail, if_pos ?_]
        obtain ⟨k2, hk2, hrest⟩ := htail
        exact ⟨k2, List.mem_cons_of_mem _ hk2, hrest⟩
      · rw [if_neg htail]
        by_cases hhead : dxv + ((k % cw : Nat) : Int) = qx ∧
            dyv + ((k / cw : Nat) : Int) = qy ∧ inBoundsI w h qx qy
        · obtain ⟨hqx, hqy, hqb⟩ := hhead
          rw [if_pos ⟨k, List.mem_cons_self _ _, hqx, hqy, hqb⟩]
          rw [← hqx, ← hqy] at hqb ⊢
          rw [pixelAt_setPix_self (v k) hqb hlen]
          have hdm := Nat.div_add_mod k cw
          have hidx : ((dyv + ((k / cw : Nat) : Int)) - dyv).toNat * cw +
              ((dxv + ((k % cw : Nat) : Int)) - dxv).toNat = k := by
            have e1 : (dyv + ((k / cw : Nat) : Int)) - dyv = ((k / cw : Nat) : Int) := by ring
            have e2 : (dxv + ((k % cw : Nat) : Int)) - dxv = ((k % cw : Nat) : Int) := by ring
            rw [e1, e2, Int.toNat_natCast, Int.toNat_natCast,
              Nat.mul_comm (k / cw) cw]
            omega
          rw [hidx]
        · rw [if_neg ?_]
          swap
          · rintro ⟨k2, hk2m, hrest⟩
            rcases List.mem_cons.mp hk2m with rfl | hmem
            · exact hhead hrest
            · exact htail ⟨k2, hmem, hrest⟩
          by_cases hq : inBoundsI w h qx qy
          · apply pixelAt_setPix_ne
            rintro ⟨rfl, rfl⟩
            exact hhead ⟨rfl, rfl, hq⟩
          · unfold pixelAt
            rw [if_neg hq, if_neg hq]

/-- Evaluating the spec-modelled copy on a 3×3 selection with
top-left `(sx, sy)`. -/
theorem copySel_3x3 (w h : Nat) (buf : Buffer) (sx sy : Int) :
    copySel w h buf (sx, sy) (sx + 2, sy + 2) =
    ⟨3, 3, (List.range 9).map (fun k =>
      bufGet w buf (sx + ((k % 3 : Nat) : Int)) (sy + ((k / 3 : Nat) : Int)))⟩ := by
  unfold copySel
  have h1 : min sx (sx + 2) = sx := min_eq_left (by omega)
  have h2 : min sy (sy + 2) = sy := min_eq_left (by omega)
  have h3 : max sx (sx + 2) = sx + 2 := max_eq_right (by omega)
  have h4 : max sy (sy + 2) = sy + 2 := max_eq_right (by omega)
  simp only [h1, h2, h3, h4]
  have h5 : (sx + 2 - sx + 1).toNat = 3 := by omega
  have h6 : (sy + 2 - sy + 1).toNat = 3 := by omega
  rw [h5, h6]

/-- C6: after a copy of a 3×3 selection, a paste at a destination
point reproduces the original 3×3 pixel block at the new location:
the paste succeeds (never errors), each block pixel that lands in
bounds carries the source pixel's color, and each block pixel that
falls outside the canvas is clipped (the write is skipped). -/
theorem copy_paste_3x3 (w h : Nat) (buf : Buffer)
    (hlen : (buf : List RGB).length = w * h)
    (sx sy dx dy : Int) (i j : Nat) (hi : i < 3) (hj : j < 3) :
    ∃ b2, paste w h buf (some (copySel w h buf (sx, sy) (sx + 2, sy + 2)))
        (dx, dy) = .ok b2 ∧
      pixelAt w h b2 (dx + (i : Int)) (dy + (j : Int)) =
        (if inBoundsI w h (dx + (i : Int)) (dy + (j : Int))
         then some (bufGet w buf (sx + (i : Int)) (sy + (j : Int)))
         else none) := by
  rw [copySel_3x3]
  refine ⟨_, rfl, ?_⟩
  rw [show ((3 : Nat) * 3) = 9 from rfl]
  rw [pasteFold_pixelAt w h 3 dx dy _ (List.range 9) buf hlen
    (dx + (i : Int)) (dy + (j : Int))]
  by_cases hq : inBoundsI w h (dx + (i : Int)) (dy + (j : Int))
  · rw [if_pos hq, if_pos ?_]
    swap
    · refine ⟨j * 3 + i, List.mem_range.mpr (by omega), ?_, ?_, hq⟩
      · rw [show (j * 3 + i) % 3 = i from by omega]
      · rw [show (j * 3 + i) / 3 = j from by omega]
    have hidx : ((dy + (j : Int)) - dy).toNat * 3 + ((dx + (i : Int)) - dx).toNat
        = j * 3 + i := by
      have e1 : (dy + (j : Int)) - dy = ((j : Nat) : Int) := by ring
      have e2 : (dx + (i : Int)) - dx = ((i : Nat) : Int) := by ring
      rw [e1, e2, Int.toNat_natCast, Int.toNat_natCast]
    rw [hidx]
    rw [List.get?_map, List.get?_range (by omega : j * 3 + i < 9)]
    simp only [Option.map_some', Option.getD_some]
    rw [show (j * 3 + i) % 3 = i from by omega,
      show (j * 3 + i) / 3 = j from by omega]
  · rw [if_neg hq, if_neg ?_]
    · unfold pixelAt
      rw [if_neg hq]
    · rintro ⟨k, _, _, _, hkin⟩
      exact hq hkin

/-- Witness for C6: a concrete 2×2 canvas, a 3×3 copy whose source
overhangs the canvas, pasted at `(1, 1)`; block pixel `(0, 0)` lands
in bounds and carries the source pixel, per `copy_paste_3x3`. -/
theorem copy_paste_3x3_witness :
    ∃ b2, paste 2 2 [⟨1, 2, 3⟩, ⟨4, 5, 6⟩, ⟨7, 8, 9⟩, ⟨10, 11, 12⟩]
        (some (copySel 2 2 [⟨1, 2, 3⟩, ⟨4, 5, 6⟩, ⟨7, 8, 9⟩, ⟨10, 11, 12⟩]
          (0, 0) (0 + 2, 0 + 2))) (1, 1) = .ok b2 ∧
      pixelAt 2 2 b2 (1 + ((0 : Nat) : Int)) (1 + ((0 : Nat) : Int)) =
        (if inBoundsI 2 2 (1 + ((0 : Nat) : Int)) (1 + ((0 : Nat) : Int))
         then some (bufGet 2 [⟨1, 2, 3⟩, ⟨4, 5, 6⟩, ⟨7, 8, 9⟩, ⟨10, 11, 12⟩]
            (0 + ((0 : Nat) : Int)) (0 + ((0 : Nat) : Int)))
         else none) :=
  copy_paste_3x3 2 2 [⟨1, 2, 3⟩, ⟨4, 5, 6⟩, ⟨7, 8, 9⟩, ⟨10, 11, 12⟩]
    (by decide) 0 0 1 1 0 0 (by decide) (by decide)

end RetroPixel
